import Mathlib

/-!
Shallow embedding of `pagerank.py`.

The program represents a corpus as a Python `dict` mapping each page name to
the `set` of pages it links to, and rank vectors / probability distributions
as `dict`s mapping page names to floats.  We model

* a `dict` as an association list in insertion order (Python dicts preserve
  insertion order, and `rank_pages` relies on that order when it iterates);
* a `set` of pages as the list of its elements (Python sets are duplicate
  free; where the length of a set matters we carry `Nodup` hypotheses);
* floats as exact rationals (`ℚ`), the idealised-real reading of the
  floating-point arithmetic in the source;
* `random.choice` / `random.choices` by an oracle `draws : ℕ → Page` giving
  the page chosen at each step of the random walk (both library calls always
  return an element of `list(corpus)` resp. of the transition model's key
  set, which is again the corpus's key set);
* the unbounded recursion of `rank_pages` with an explicit fuel parameter:
  `none` means the recursion did not terminate within `fuel` passes, so a
  `some` result is the value the Python program returns.

Python raises `KeyError` for a lookup of an absent key; `lookupD` returns a
default instead.  Every lookup performed by the program on the executions the
theorems below speak about hits a present key (the hit-counter, rank-vector
and repaired-corpus dicts are all keyed by the corpus's keys), so the default
is never consulted there.  Likewise `dictSet` models Python dict assignment
as an in-place update of an existing key: every assignment in the program
(`corpus[page_p] = ...`, `pageranks[page_p] = ...`, `page_hits[p] += 1`)
targets a key that is already present (`page_p` ranges over the corpus's own
keys, and the hit/rank dicts are initialised with exactly the corpus's keys;
`page_hits[p] += 1` would raise `KeyError` on an absent key before any
insertion could happen).
-/

abbrev Page := String

abbrev Corpus := List (Page × List Page)

abbrev Distro := List (Page × ℚ)

/-- First value bound to key `p`, if any (`d[p]` in Python, which raises
`KeyError` when the result here is `none`). -/
def lookupOpt {α : Type} (l : List (Page × α)) (p : Page) : Option α :=
  match l with
  | [] => none
  | q :: rest => if q.1 == p then some q.2 else lookupOpt rest p

/-- Lookup with a default value for absent keys. -/
def lookupD {α : Type} (l : List (Page × α)) (p : Page) (dflt : α) : α :=
  (lookupOpt l p).getD dflt

/-- In-place update of the value at key `p` (Python `d[p] = v` on a present
key: the entry keeps its position, no entry is added or removed). -/
def dictSet {α : Type} (l : List (Page × α)) (p : Page) (v : α) : List (Page × α) :=
  l.map (fun q => if q.1 == p then (q.1, v) else q)

/-- Sum of the values of a distribution dict. -/
def sumDist (dist : Distro) : ℚ :=
  (dist.map Prod.snd).sum

/-- `transition_model(corpus, page, damping_factor)` (pagerank.py:49-80).
`corpus[page]` first (KeyError modelled as `none`), then the dict
comprehension assigning `1/len(corpus)` to every corpus page, returned
unchanged when `page` has no outgoing links, else reassigned per page. -/
def transition_model (corpus : Corpus) (page : Page) (damping_factor : ℚ) :
    Option Distro :=
  match lookupOpt corpus page with
  | none => none
  | some outgoing_links =>
    let probability_distro : Distro :=
      corpus.map (fun q => (q.1, (1 : ℚ) / corpus.length))
    if outgoing_links.length = 0 then some probability_distro
    else
      let damping_probability : ℚ := damping_factor / outgoing_links.length
      let random_probability : ℚ := (1 - damping_factor) / corpus.length
      some (probability_distro.map (fun q =>
        if q.1 ∈ outgoing_links then (q.1, damping_probability + random_probability)
        else (q.1, random_probability)))

/-- One `page_hits[current_page] += 1` of `sample_pagerank`. -/
def bumpHit (page_hits : List (Page × ℕ)) (p : Page) : List (Page × ℕ) :=
  dictSet page_hits p (lookupD page_hits p 0 + 1)

/-- The sampling loop of `sample_pagerank` (pagerank.py:98-109): starting at
step `i` with `rem` iterations left, record a hit for the page drawn at each
step.  `draws i` is the page `random.choice` (step 0) or the weighted
`random.choices` over the transition model (later steps) returns at step
`i`; either call yields a key of the corpus. -/
def sampleSteps (draws : ℕ → Page) : ℕ → ℕ → List (Page × ℕ) → List (Page × ℕ)
  | _, 0, page_hits => page_hits
  | i, rem + 1, page_hits => sampleSteps draws (i + 1) rem (bumpHit page_hits (draws i))

/-- `sample_pagerank(corpus, damping_factor, n)` (pagerank.py:83-112) with the
random draws supplied by the oracle `draws`.  The `while current_n < n` loop
runs `max n 0` times; the final dict comprehension divides each hit count by
`n`, raising `ZeroDivisionError` (modelled as `none`) when `n = 0`. -/
def sample_pagerank (corpus : Corpus) (damping_factor : ℚ) (n : ℤ)
    (draws : ℕ → Page) : Option Distro :=
  let page_hits : List (Page × ℕ) := corpus.map (fun q => (q.1, (0 : ℕ)))
  let final_hits := sampleSteps draws 0 n.toNat page_hits
  if n = 0 then none
  else some (final_hits.map (fun q => (q.1, (q.2 : ℚ) / (n : ℚ))))

/-- Number of steps `j` among `steps` total at which page `p` was drawn; the
final value of `page_hits[p]`. -/
def countHits (draws : ℕ → Page) (steps : ℕ) (p : Page) : ℕ :=
  ((List.range steps).filter (fun j => draws j == p)).length

/-- Number of steps `j` with `i ≤ j < i + rem` at which page `p` was drawn. -/
def countRange (draws : ℕ → Page) (i rem : ℕ) (p : Page) : ℕ :=
  ((List.range' i rem).filter (fun j => draws j == p)).length

/-- Sum of the hit counters. -/
def sumHits (page_hits : List (Page × ℕ)) : ℕ :=
  (page_hits.map Prod.snd).sum

/-- `CONVERGENCE = 0.001` (pagerank.py:8). -/
def CONVERGENCE : ℚ := 1 / 1000

/-- The list comprehension `[page_i for page_i, page_i_links in corpus.items()
if page_p in page_i_links]` (pagerank.py:147-150): pages linking to `page_p`,
read off the current (possibly repaired) corpus. -/
def inNeighbors (corpus : Corpus) (page_p : Page) : List Page :=
  (corpus.filter (fun q => decide (page_p ∈ q.2))).map Prod.fst

/-- The value assigned by `rank_pages` to a page with outgoing links
(pagerank.py:141-152): `(1-d)/len(corpus) + d * sum(pageranks[link] /
len(corpus[link]) ...)` over the in-neighbors, all read from the current
state `st` (the in-place updated `corpus` and `pageranks` dicts). -/
def gsValue (damping_factor : ℚ) (st : Corpus × Distro) (page_p : Page) : ℚ :=
  (1 - damping_factor) / st.1.length +
    damping_factor * ((inNeighbors st.1 page_p).map
      (fun link => lookupD st.2 link 0 / ((lookupD st.1 link []).length : ℚ))).sum

/-- One iteration of the `for page_p, links in corpus.items()` loop of
`rank_pages` (pagerank.py:139-159).  `links` is the value of `corpus[page_p]`
when the loop reaches `page_p` (no earlier iteration modifies it).  In the
sink branch the assignment `corpus[page_p] = set(corpus.keys())` happens
first, but the subsequent sum still iterates the *old* `links` object, which
is empty. -/
def passStep (damping_factor : ℚ) (st : Corpus × Distro) (page_p : Page) :
    Corpus × Distro :=
  let links := lookupD st.1 page_p []
  if 0 < links.length then
    (st.1, dictSet st.2 page_p (gsValue damping_factor st page_p))
  else
    let corpus' := dictSet st.1 page_p (st.1.map Prod.fst)
    (corpus', dictSet st.2 page_p
      ((1 - damping_factor) / corpus'.length +
        damping_factor * (links.map
          (fun link => lookupD st.2 link 0 / ((lookupD corpus' link []).length : ℚ))).sum))

/-- One full pass of `rank_pages` over all pages, in the corpus's key order. -/
def onePass (damping_factor : ℚ) (st : Corpus × Distro) : Corpus × Distro :=
  List.foldl (passStep damping_factor) st (st.1.map Prod.fst)

/-- The convergence check of `rank_pages` (pagerank.py:161-165): every new
rank within `CONVERGENCE` of the start-of-pass snapshot. -/
def convergedB (old_pageranks new_pageranks : Distro) : Bool :=
  new_pageranks.all (fun q => decide (|lookupD old_pageranks q.1 0 - q.2| ≤ CONVERGENCE))

/-- `rank_pages(corpus, damping_factor, pageranks)` (pagerank.py:131-170),
with fuel for the unbounded recursion.  The result pairs the final state
(corpus and rank dicts, threaded through the recursion the way the mutated
Python objects are) with the returned `pageranks` value.  The recursive
call's return value `res.2` is discarded, exactly as in the source; the
function returns the threaded rank dict `res.1.2`. -/
def rank_pages (damping_factor : ℚ) : ℕ → Corpus × Distro → Option ((Corpus × Distro) × Distro)
  | 0, _ => none
  | fuel + 1, st =>
    let st' := onePass damping_factor st
    if convergedB st.2 st'.2 then some (st', st'.2)
    else (rank_pages damping_factor fuel st').map (fun res => (res.1, res.1.2))

/-- The explicit-loop reformulation of `rank_pages`: repeat passes until
every per-page change is at most `CONVERGENCE`, return the final state. -/
def rank_pages_loop (damping_factor : ℚ) : ℕ → Corpus × Distro → Option (Corpus × Distro)
  | 0, _ => none
  | fuel + 1, st =>
    let st' := onePass damping_factor st
    if convergedB st.2 st'.2 then some st'
    else rank_pages_loop damping_factor fuel st'

/-- `iterate_pagerank(corpus, damping_factor)` (pagerank.py:115-128): every
rank initialised to `1/len(corpus)`, then `rank_pages`. -/
def iterate_pagerank (corpus : Corpus) (damping_factor : ℚ) (fuel : ℕ) :
    Option Distro :=
  let pageranks : Distro := corpus.map (fun q => (q.1, (1 : ℚ) / corpus.length))
  (rank_pages damping_factor fuel (corpus, pageranks)).map Prod.snd

/-- The corpus after the one-time sink repair: every page with an empty
outgoing set now links to the full page set, every other page unchanged. -/
def repairCorpus (corpus : Corpus) : Corpus :=
  corpus.map (fun q => (q.1, if q.2 = [] then corpus.map Prod.fst else q.2))

/-- Two-page corpus `{"a": {"b"}, "b": {"a"}}`. -/
def corpusA : Corpus := [("a", ["b"]), ("b", ["a"])]

/-- Rank vector `{a: 1/2, b: 1/2}`. -/
def initA : Distro := [("a", 1/2), ("b", 1/2)]

/-- Three-page corpus `{"a": {"b","c"}, "b": {"c"}, "c": {"a"}}`, no sinks. -/
def corpusGS : Corpus := [("a", ["b", "c"]), ("b", ["c"]), ("c", ["a"])]

/-- Three-page corpus `{"a": {"b","c"}, "b": {}, "c": {"a"}}`: `b` is a sink
(scenario B of the spec). -/
def corpusB : Corpus := [("a", ["b", "c"]), ("b", []), ("c", ["a"])]

/-- Uniform rank vector on three pages. -/
def thirds : Distro := [("a", 1/3), ("b", 1/3), ("c", 1/3)]

/-- Single-page corpus `{"a": {}}` (scenario C of the spec). -/
def corpusC : Corpus := [("a", [])]

/-! Basic association-list lemmas. -/

theorem lookupOpt_mem_keys {α : Type} {l : List (Page × α)} {p : Page}
    (h : p ∈ l.map Prod.fst) : ∃ v, lookupOpt l p = some v := by
  induction l with
  | nil => simp at h
  | cons a t ih =>
    by_cases ha : a.1 == p
    · exact ⟨a.2, by simp [lookupOpt, ha]⟩
    · have hp : p ∈ t.map Prod.fst := by
        rcases (by simpa using h) with h1 | h1
        · exact absurd (by simp [h1]) ha
        · simpa using h1
      rcases ih hp with ⟨v, hv⟩
      exact ⟨v, by simp [lookupOpt, ha, hv]⟩

theorem mem_of_lookupOpt {α : Type} {l : List (Page × α)} {p : Page} {v : α}
    (h : lookupOpt l p = some v) : (p, v) ∈ l := by
  induction l with
  | nil => simp [lookupOpt] at h
  | cons a t ih =>
    by_cases ha : a.1 == p
    · rw [lookupOpt, if_pos ha] at h
      have h1 : a.1 = p := by simpa using ha
      have h2 : a.2 = v := by injection h
      rw [List.mem_cons]
      left
      rw [← h1, ← h2]
    · rw [lookupOpt, if_neg ha] at h
      exact List.mem_cons_of_mem a (ih h)

theorem keys_ne_nil_of_lookupOpt {α : Type} {l : List (Page × α)} {p : Page} {v : α}
    (h : lookupOpt l p = some v) : l ≠ [] := by
  intro hl
  subst hl
  simp [lookupOpt] at h

theorem lookupOpt_of_mem_nodup {α : Type} {l : List (Page × α)}
    (hnd : (l.map Prod.fst).Nodup) {q : Page × α} (hq : q ∈ l) :
    lookupOpt l q.1 = some q.2 := by
  induction l with
  | nil => simp at hq
  | cons a t ih =>
    rcases List.mem_cons.mp hq with hq1 | hq1
    · subst hq1
      simp [lookupOpt]
    · rw [List.map_cons, List.nodup_cons] at hnd
      have ha : ¬(a.1 == q.1) := by
        intro hh
        have he : a.1 = q.1 := by simpa using hh
        exact hnd.1 (he ▸ List.mem_map_of_mem Prod.fst hq1)
      rw [lookupOpt, if_neg ha]
      exact ih hnd.2 hq1

theorem lookupOpt_cons {α : Type} (a : Page × α) (t : List (Page × α)) (p : Page) :
    lookupOpt (a :: t) p = if a.1 == p then some a.2 else lookupOpt t p := rfl

theorem dictSet_cons {α : Type} (a : Page × α) (t : List (Page × α)) (p : Page) (v : α) :
    dictSet (a :: t) p v = (if a.1 == p then (a.1, v) else a) :: dictSet t p v := rfl

theorem dictSet_map_fst {α : Type} (l : List (Page × α)) (p : Page) (v : α) :
    (dictSet l p v).map Prod.fst = l.map Prod.fst := by
  unfold dictSet
  rw [List.map_map]
  apply List.map_congr_left
  intro q _
  by_cases h : q.1 == p
  · simp only [Function.comp_apply, if_pos h]
  · simp only [Function.comp_apply, if_neg h]

theorem dictSet_length {α : Type} (l : List (Page × α)) (p : Page) (v : α) :
    (dictSet l p v).length = l.length := by
  simp [dictSet]

theorem lookupOpt_dictSet_self {α : Type} {l : List (Page × α)} {p : Page} (v : α)
    (h : p ∈ l.map Prod.fst) : lookupOpt (dictSet l p v) p = some v := by
  induction l with
  | nil => simp at h
  | cons a t ih =>
    by_cases ha : a.1 == p
    · simp [dictSet, lookupOpt, ha]
    · have hp : p ∈ t.map Prod.fst := by
        rcases (by simpa using h) with h1 | h1
        · exact absurd (by simp [h1]) ha
        · simpa using h1
      simpa [dictSet, lookupOpt, ha] using ih hp

theorem lookupOpt_dictSet_ne {α : Type} (l : List (Page × α)) (p q : Page) (v : α)
    (hne : q ≠ p) : lookupOpt (dictSet l p v) q = lookupOpt l q := by
  induction l with
  | nil => rfl
  | cons a t ih =>
    rw [dictSet_cons]
    by_cases ha : a.1 == p
    · have h1 : a.1 = p := by simpa using ha
      have h2 : (a.1 == q) = false := by
        refine beq_eq_false_iff_ne.mpr ?_
        rw [h1]
        exact fun h => hne h.symm
      simp [lookupOpt_cons, ha, h2, ih]
    · by_cases h2 : a.1 == q <;> simp [lookupOpt_cons, ha, h2, ih]

theorem lookupOpt_map_key {α β : Type} (g : Page → β) (l : List (Page × α)) (p : Page)
    (h : p ∈ l.map Prod.fst) :
    lookupOpt (l.map (fun q => (q.1, g q.1))) p = some (g p) := by
  induction l with
  | nil => simp at h
  | cons a t ih =>
    by_cases ha : a.1 == p
    · have h1 : a.1 = p := by simpa using ha
      simp [lookupOpt, ha, h1]
    · have hp : p ∈ t.map Prod.fst := by
        rcases (by simpa using h) with h1 | h1
        · exact absurd (by simp [h1]) ha
        · simpa using h1
      simpa [lookupOpt, ha] using ih hp

theorem lookupOpt_map_val {α β : Type} (f : Page × α → β) (l : List (Page × α))
    (p : Page) (v : α) (h : lookupOpt l p = some v) :
    lookupOpt (l.map (fun q => (q.1, f q))) p = some (f (p, v)) := by
  induction l with
  | nil => simp [lookupOpt] at h
  | cons a t ih =>
    by_cases ha : a.1 == p
    · rw [lookupOpt, if_pos ha] at h
      have h1 : a.1 = p := by simpa using ha
      have h2 : a.2 = v := by injection h
      simp only [List.map_cons, lookupOpt, ha, if_pos]
      rw [← h1, ← h2]
    · rw [lookupOpt, if_neg ha] at h
      simpa [lookupOpt, ha] using ih h

/-! Lemmas about a single step and a single pass of rank_pages. -/

theorem lookupD_eq {α : Type} (l : List (Page × α)) (p : Page) (dflt v : α)
    (h : lookupOpt l p = some v) : lookupD l p dflt = v := by
  simp [lookupD, h]

theorem passStep_nonsink (d : ℚ) (st : Corpus × Distro) (p : Page) (L : List Page)
    (hL : lookupOpt st.1 p = some L) (hne : L ≠ []) :
    passStep d st p = (st.1, dictSet st.2 p (gsValue d st p)) := by
  simp only [passStep, lookupD, hL, Option.getD_some]
  rw [if_pos (List.length_pos.mpr hne)]

theorem passStep_sink (d : ℚ) (st : Corpus × Distro) (p : Page)
    (hL : lookupOpt st.1 p = some []) :
    passStep d st p = (dictSet st.1 p (st.1.map Prod.fst),
      dictSet st.2 p ((1 - d) / st.1.length)) := by
  simp [passStep, lookupD, hL, dictSet_length]

theorem passStep_corpus_keys (d : ℚ) (st : Corpus × Distro) (p : Page) :
    (passStep d st p).1.map Prod.fst = st.1.map Prod.fst := by
  simp only [passStep]
  split
  · rfl
  · exact dictSet_map_fst _ _ _

theorem passStep_ranks_keys (d : ℚ) (st : Corpus × Distro) (p : Page) :
    (passStep d st p).2.map Prod.fst = st.2.map Prod.fst := by
  simp only [passStep]
  split
  · exact dictSet_map_fst _ _ _
  · exact dictSet_map_fst _ _ _

theorem passStep_corpus_lookupOpt_ne (d : ℚ) (st : Corpus × Distro) (p q : Page)
    (hne : q ≠ p) : lookupOpt (passStep d st p).1 q = lookupOpt st.1 q := by
  simp only [passStep]
  split
  · rfl
  · exact lookupOpt_dictSet_ne _ _ _ _ hne

theorem passStep_ranks_lookupOpt_ne (d : ℚ) (st : Corpus × Distro) (p q : Page)
    (hne : q ≠ p) : lookupOpt (passStep d st p).2 q = lookupOpt st.2 q := by
  simp only [passStep]
  split
  · exact lookupOpt_dictSet_ne _ _ _ _ hne
  · exact lookupOpt_dictSet_ne _ _ _ _ hne

theorem foldl_pass_corpus_keys (d : ℚ) (l : List Page) :
    ∀ st : Corpus × Distro,
    (List.foldl (passStep d) st l).1.map Prod.fst = st.1.map Prod.fst := by
  induction l with
  | nil => intro st; rfl
  | cons a t ih =>
    intro st
    rw [List.foldl_cons, ih, passStep_corpus_keys]

theorem foldl_pass_ranks_keys (d : ℚ) (l : List Page) :
    ∀ st : Corpus × Distro,
    (List.foldl (passStep d) st l).2.map Prod.fst = st.2.map Prod.fst := by
  induction l with
  | nil => intro st; rfl
  | cons a t ih =>
    intro st
    rw [List.foldl_cons, ih, passStep_ranks_keys]

theorem foldl_pass_corpus_lookupOpt (d : ℚ) (p : Page) (l : List Page) (hp : p ∉ l) :
    ∀ st : Corpus × Distro,
    lookupOpt (List.foldl (passStep d) st l).1 p = lookupOpt st.1 p := by
  induction l with
  | nil => intro st; rfl
  | cons a t ih =>
    intro st
    rw [List.foldl_cons, ih (fun h => hp (List.mem_cons_of_mem a h)),
        passStep_corpus_lookupOpt_ne d st a p (fun h => hp (h ▸ List.mem_cons_self a t))]

theorem foldl_pass_ranks_lookupOpt (d : ℚ) (p : Page) (l : List Page) (hp : p ∉ l) :
    ∀ st : Corpus × Distro,
    lookupOpt (List.foldl (passStep d) st l).2 p = lookupOpt st.2 p := by
  induction l with
  | nil => intro st; rfl
  | cons a t ih =>
    intro st
    rw [List.foldl_cons, ih (fun h => hp (List.mem_cons_of_mem a h)),
        passStep_ranks_lookupOpt_ne d st a p (fun h => hp (h ▸ List.mem_cons_self a t))]

theorem foldl_pass_corpus_char (d : ℚ) (l : List Page) :
    ∀ st : Corpus × Distro, l.Nodup → (st.1.map Prod.fst).Nodup →
    (∀ p ∈ l, p ∈ st.1.map Prod.fst) →
    (List.foldl (passStep d) st l).1 =
      st.1.map (fun q => if q.1 ∈ l ∧ q.2 = [] then (q.1, st.1.map Prod.fst) else q) := by
  induction l with
  | nil =>
    intro st _ _ _
    simp
  | cons a t ih =>
    intro st hnd hknd hmem
    have hat : a ∉ t := (List.nodup_cons.mp hnd).1
    have htnd : t.Nodup := (List.nodup_cons.mp hnd).2
    have hak : a ∈ st.1.map Prod.fst := hmem a (List.mem_cons_self a t)
    rcases lookupOpt_mem_keys hak with ⟨L, hL⟩
    rw [List.foldl_cons]
    by_cases hLe : L = []
    · subst hLe
      rw [passStep_sink d st a hL]
      have h1 : ((dictSet st.1 a (st.1.map Prod.fst),
          dictSet st.2 a ((1 - d) / st.1.length)).1.map Prod.fst).Nodup := by
        rw [dictSet_map_fst]; exact hknd
      have h2 : ∀ p ∈ t, p ∈ (dictSet st.1 a (st.1.map Prod.fst),
          dictSet st.2 a ((1 - d) / st.1.length)).1.map Prod.fst := by
        intro p hp
        rw [dictSet_map_fst]
        exact hmem p (List.mem_cons_of_mem a hp)
      rw [ih _ htnd h1 h2]
      show (dictSet st.1 a (st.1.map Prod.fst)).map _ = _
      rw [dictSet_map_fst]
      unfold dictSet
      rw [List.map_map]
      apply List.map_congr_left
      intro q hq
      by_cases hqa : q.1 = a
      · have hq2 : q.2 = [] := by
          have := lookupOpt_of_mem_nodup hknd hq
          rw [hqa, hL] at this
          injection this with h
          exact h.symm
        have hbeq : (q.1 == a) = true := by simpa using hqa
        have hnt : q.1 ∉ t := hqa ▸ hat
        simp only [Function.comp_apply, hbeq, if_pos]
        rw [if_neg (by simp [hnt]), if_pos ⟨by simp [hqa], hq2⟩]
      · have hbeq : (q.1 == a) = false := by simpa using hqa
        simp only [Function.comp_apply, hbeq, Bool.false_eq_true, if_false]
        have hiff : (q.1 ∈ a :: t ∧ q.2 = []) ↔ (q.1 ∈ t ∧ q.2 = []) := by
          constructor
          · rintro ⟨hm, he⟩
            rcases List.mem_cons.mp hm with h | h
            · exact absurd h hqa
            · exact ⟨h, he⟩
          · rintro ⟨hm, he⟩
            exact ⟨List.mem_cons_of_mem a hm, he⟩
        by_cases hc : q.1 ∈ t ∧ q.2 = []
        · rw [if_pos hc, if_pos (hiff.mpr hc)]
        · rw [if_neg hc, if_neg (fun h => hc (hiff.mp h))]
    · rw [passStep_nonsink d st a L hL hLe]
      have h1 : ((st.1, dictSet st.2 a (gsValue d st a)).1.map Prod.fst).Nodup := hknd
      have h2 : ∀ p ∈ t, p ∈ (st.1, dictSet st.2 a (gsValue d st a)).1.map Prod.fst :=
        fun p hp => hmem p (List.mem_cons_of_mem a hp)
      rw [ih _ htnd h1 h2]
      apply List.map_congr_left
      intro q hq
      by_cases hqa : q.1 = a
      · have hq2 : q.2 = L := by
          have := lookupOpt_of_mem_nodup hknd hq
          rw [hqa, hL] at this
          injection this with h
          exact h.symm
        rw [if_neg (fun h => hLe (hq2 ▸ h.2)), if_neg (fun h => hLe (hq2 ▸ h.2))]
      · have hiff : (q.1 ∈ a :: t ∧ q.2 = []) ↔ (q.1 ∈ t ∧ q.2 = []) := by
          constructor
          · rintro ⟨hm, he⟩
            rcases List.mem_cons.mp hm with h | h
            · exact absurd h hqa
            · exact ⟨h, he⟩
          · rintro ⟨hm, he⟩
            exact ⟨List.mem_cons_of_mem a hm, he⟩
        by_cases hc : q.1 ∈ t ∧ q.2 = []
        · rw [if_pos hc, if_pos (hiff.mpr hc)]
        · rw [if_neg hc, if_neg (fun h => hc (hiff.mp h))]

theorem onePass_corpus (d : ℚ) (st : Corpus × Distro)
    (hknd : (st.1.map Prod.fst).Nodup) :
    (onePass d st).1 = repairCorpus st.1 := by
  unfold onePass repairCorpus
  rw [foldl_pass_corpus_char d _ st hknd hknd (fun p hp => hp)]
  apply List.map_congr_left
  intro q hq
  have hm : q.1 ∈ st.1.map Prod.fst := List.mem_map_of_mem Prod.fst hq
  by_cases he : q.2 = []
  · rw [if_pos ⟨hm, he⟩, if_pos he]
  · rw [if_neg (fun h => he h.2), if_neg he]

theorem repairCorpus_keys (c : Corpus) :
    (repairCorpus c).map Prod.fst = c.map Prod.fst := by
  unfold repairCorpus
  rw [List.map_map]
  apply List.map_congr_left
  intro q _
  rfl

theorem repairCorpus_no_sink (c : Corpus) : ∀ q ∈ repairCorpus c, q.2 ≠ [] := by
  intro q hq
  rcases List.mem_map.mp hq with ⟨q0, hq0, hmap⟩
  have hc : c ≠ [] := by
    intro h
    rw [h] at hq0
    simp at hq0
  rw [← hmap]
  show (if q0.2 = [] then c.map Prod.fst else q0.2) ≠ []
  by_cases he : q0.2 = []
  · rw [if_pos he]
    intro h
    exact hc (List.map_eq_nil_iff.mp h)
  · rw [if_neg he]
    exact he

theorem onePass_corpus_no_sink (d : ℚ) (st : Corpus × Distro)
    (hknd : (st.1.map Prod.fst).Nodup) (hns : ∀ q ∈ st.1, q.2 ≠ []) :
    (onePass d st).1 = st.1 := by
  rw [onePass_corpus d st hknd]
  unfold repairCorpus
  conv_rhs => rw [← List.map_id st.1]
  apply List.map_congr_left
  intro q hq
  rw [if_neg (hns q hq)]
  rfl

theorem rank_pages_corpus_fixed (d : ℚ) (fuel : ℕ) :
    ∀ (st stF : Corpus × Distro) (ret : Distro),
    (st.1.map Prod.fst).Nodup → (∀ q ∈ st.1, q.2 ≠ []) →
    rank_pages d fuel st = some (stF, ret) → stF.1 = st.1 := by
  induction fuel with
  | zero =>
    intro st stF ret _ _ h
    simp [rank_pages] at h
  | succ n ih =>
    intro st stF ret hknd hns h
    have hcorp : (onePass d st).1 = st.1 := onePass_corpus_no_sink d st hknd hns
    simp only [rank_pages] at h
    split at h
    · have h1 : onePass d st = stF := by
        injection h with h'
        injection h' with h1 h2
      rw [← h1, hcorp]
    · rcases Option.map_eq_some'.mp h with ⟨res, hres, heq⟩
      have h1 : res.1 = stF := by
        injection heq with h1 h2
      have hknd' : ((onePass d st).1.map Prod.fst).Nodup := by
        rw [hcorp]; exact hknd
      have hns' : ∀ q ∈ (onePass d st).1, q.2 ≠ [] := by
        rw [hcorp]; exact hns
      have := ih (onePass d st) res.1 res.2 hknd' hns' (by rw [← hres])
      rw [← h1, this, hcorp]

/-! Summation and counting lemmas. -/

theorem sum_map_div {α : Type} (l : List α) (f : α → ℚ) (c : ℚ) :
    (l.map (fun x => f x / c)).sum = (l.map f).sum / c := by
  induction l with
  | nil => simp
  | cons a t ih => simp [ih, add_div]

theorem sum_map_add_nat {α : Type} (l : List α) (f g : α → ℕ) :
    (l.map (fun x => f x + g x)).sum = (l.map f).sum + (l.map g).sum := by
  induction l with
  | nil => rfl
  | cons a t ih =>
    simp only [List.map_cons, List.sum_cons, ih]
    omega

theorem sum_map_ite {α : Type} (P : α → Prop) [DecidablePred P] (a b : ℚ)
    (l : List α) :
    (l.map (fun x => if P x then a + b else b)).sum =
      (l.countP (fun x => decide (P x)) : ℚ) * a + (l.length : ℚ) * b := by
  induction l with
  | nil => simp
  | cons x t ih =>
    by_cases h : P x
    · have hd : decide (P x) = true := decide_eq_true h
      simp only [List.map_cons, List.sum_cons, List.countP_cons, List.length_cons,
        if_pos h, ih, hd, if_true]
      push_cast
      ring
    · have hd : decide (P x) = false := decide_eq_false h
      simp only [List.map_cons, List.sum_cons, List.countP_cons, List.length_cons,
        if_neg h, ih, hd, Bool.false_eq_true, if_false]
      push_cast
      ring

theorem countP_mem_nodup (keys : List Page) :
    ∀ L : List Page, keys.Nodup → L.Nodup → (∀ x ∈ L, x ∈ keys) →
    keys.countP (fun x => decide (x ∈ L)) = L.length := by
  induction keys with
  | nil =>
    intro L _ _ hsub
    have hL : L = [] := List.eq_nil_iff_forall_not_mem.mpr
      (fun x hx => by simpa using hsub x hx)
    simp [hL]
  | cons a ks ih =>
    intro L hknd hLnd hsub
    have hand := List.nodup_cons.mp hknd
    by_cases ha : a ∈ L
    · have h1 : ks.countP (fun x => decide (x ∈ L)) =
          ks.countP (fun x => decide (x ∈ L.erase a)) := by
        apply List.countP_congr
        intro x hx
        have hxa : x ≠ a := fun h => hand.1 (h ▸ hx)
        simp [List.Nodup.mem_erase_iff hLnd, hxa]
      have h2 : ks.countP (fun x => decide (x ∈ L.erase a)) = (L.erase a).length := by
        apply ih (L.erase a) hand.2 (List.Nodup.erase a hLnd)
        intro x hx
        rcases (List.Nodup.mem_erase_iff hLnd).mp hx with ⟨hxa, hxL⟩
        rcases List.mem_cons.mp (hsub x hxL) with h | h
        · exact absurd h hxa
        · exact h
      have h3 : (L.erase a).length = L.length - 1 := List.length_erase_of_mem ha
      have h4 : 0 < L.length := List.length_pos_of_mem ha
      have hd : decide (a ∈ L) = true := decide_eq_true ha
      simp only [List.countP_cons, hd, if_true, h1, h2, h3]
      omega
    · have hsub' : ∀ x ∈ L, x ∈ ks := by
        intro x hx
        rcases List.mem_cons.mp (hsub x hx) with h | h
        · exact absurd (h ▸ hx) ha
        · exact h
      have hd : decide (a ∈ L) = false := decide_eq_false ha
      simp only [List.countP_cons, hd, Bool.false_eq_true, if_false, Nat.add_zero]
      rw [ih L hand.2 hLnd hsub']

theorem sum_indicator_nodup (keys : List Page) (a : Page) :
    keys.Nodup → a ∈ keys →
    (keys.map (fun p => if a == p then (1 : ℕ) else 0)).sum = 1 := by
  induction keys with
  | nil =>
    intro _ ha
    simp at ha
  | cons k t ih =>
    intro hnd ha
    have hand := List.nodup_cons.mp hnd
    rcases List.mem_cons.mp ha with h | h
    · subst h
      have htail : (t.map (fun p => if a == p then (1 : ℕ) else 0)).sum = 0 := by
        apply List.sum_eq_zero
        intro x hx
        rcases List.mem_map.mp hx with ⟨p, hp, hmap⟩
        have hap : ¬(a == p) = true := by
          intro he
          exact hand.1 ((by simpa using he : a = p) ▸ hp)
        rw [← hmap, if_neg hap]
      rw [List.map_cons, List.sum_cons, htail, if_pos (beq_self_eq_true a)]
    · have hk : ¬(a == k) = true := by
        intro he
        exact hand.1 ((by simpa using he : a = k) ▸ h)
      simp only [List.map_cons, List.sum_cons, if_neg hk, Nat.zero_add]
      exact ih hand.2 h

theorem sumDist_map_key (c : Corpus) (g : Page → ℚ) :
    sumDist (c.map (fun q => (q.1, g q.1))) = (c.map (fun q => g q.1)).sum := by
  unfold sumDist
  rw [List.map_map]
  rfl

/-! Lemmas about the sampling loop. -/

theorem bumpHit_keys (l : List (Page × ℕ)) (p : Page) :
    (bumpHit l p).map Prod.fst = l.map Prod.fst :=
  dictSet_map_fst _ _ _

theorem countRange_zero (draws : ℕ → Page) (i : ℕ) (p : Page) :
    countRange draws i 0 p = 0 := by
  simp [countRange]

theorem countRange_succ_self (draws : ℕ → Page) (i r : ℕ) (p : Page)
    (h : draws i = p) :
    countRange draws i (r + 1) p = 1 + countRange draws (i + 1) r p := by
  unfold countRange
  rw [List.range'_succ, List.filter_cons,
    if_pos (by rw [h]; exact beq_self_eq_true p)]
  rw [List.length_cons]
  omega

theorem countRange_succ_ne (draws : ℕ → Page) (i r : ℕ) (p : Page)
    (h : draws i ≠ p) :
    countRange draws i (r + 1) p = countRange draws (i + 1) r p := by
  unfold countRange
  rw [List.range'_succ, List.filter_cons, if_neg (by simpa using h)]

theorem sampleSteps_char (draws : ℕ → Page) : ∀ (rem i : ℕ) (l : List (Page × ℕ)),
    (l.map Prod.fst).Nodup → (∀ j, draws j ∈ l.map Prod.fst) →
    sampleSteps draws i rem l =
      l.map (fun q => (q.1, q.2 + countRange draws i rem q.1)) := by
  intro rem
  induction rem with
  | zero =>
    intro i l _ _
    show l = _
    conv_lhs => rw [← List.map_id l]
    apply List.map_congr_left
    intro q _
    simp [countRange_zero]
  | succ r ih =>
    intro i l hnd hmem
    show sampleSteps draws (i + 1) r (bumpHit l (draws i)) = _
    rw [ih (i + 1) (bumpHit l (draws i)) (by rw [bumpHit_keys]; exact hnd)
        (fun j => by rw [bumpHit_keys]; exact hmem j)]
    unfold bumpHit dictSet
    rw [List.map_map]
    apply List.map_congr_left
    intro q hq
    by_cases hqd : q.1 = draws i
    · have hbeq : (q.1 == draws i) = true := by rw [hqd]; exact beq_self_eq_true _
      have hval : lookupD l (draws i) 0 = q.2 := by
        rw [← hqd]
        exact lookupD_eq _ _ _ _ (lookupOpt_of_mem_nodup hnd hq)
      have hcr : countRange draws i (r + 1) (draws i) =
          1 + countRange draws (i + 1) r (draws i) :=
        countRange_succ_self draws i r (draws i) rfl
      simp [hqd, hbeq, hval, countRange_succ_self draws i r q.1 hqd.symm, hcr,
        Nat.add_assoc]
    · have hbeq : (q.1 == draws i) = false := beq_eq_false_iff_ne.mpr hqd
      simp [hqd, hbeq, countRange_succ_ne draws i r q.1 (fun h => hqd h.symm)]

theorem sum_countRange (draws : ℕ → Page) (keys : List Page) (hnd : keys.Nodup)
    (hmem : ∀ j, draws j ∈ keys) (rem : ℕ) : ∀ i : ℕ,
    (keys.map (fun p => countRange draws i rem p)).sum = rem := by
  induction rem with
  | zero =>
    intro i
    apply List.sum_eq_zero
    intro x hx
    rcases List.mem_map.mp hx with ⟨p, _, hmap⟩
    rw [← hmap, countRange_zero]
  | succ r ih =>
    intro i
    have hsplit : (keys.map (fun p => countRange draws i (r + 1) p)) =
        keys.map (fun p => (if draws i == p then 1 else 0) + countRange draws (i + 1) r p) := by
      apply List.map_congr_left
      intro p _
      by_cases h : draws i = p
      · rw [countRange_succ_self draws i r p h,
          if_pos (by rw [h]; exact beq_self_eq_true p)]
      · rw [countRange_succ_ne draws i r p h, if_neg (by simpa using h)]
        omega
    rw [hsplit, sum_map_add_nat, sum_indicator_nodup keys (draws i) hnd (hmem i),
      ih (i + 1)]
    omega


/-! Characterisation of transition_model. -/

theorem sum_map_const {α : Type} (l : List α) (c : ℚ) :
    (l.map (fun _ => c)).sum = l.length * c := by
  induction l with
  | nil => simp
  | cons a t ih =>
    simp [ih]
    ring

theorem transition_model_eq_empty (corpus : Corpus) (page : Page) (d : ℚ)
    (hL : lookupOpt corpus page = some []) :
    transition_model corpus page d =
      some (corpus.map (fun q => (q.1, (1 : ℚ) / (corpus.length : ℚ)))) := by
  unfold transition_model
  rw [hL]
  rfl

theorem transition_model_eq_links (corpus : Corpus) (page : Page) (d : ℚ)
    (L : List Page) (hL : lookupOpt corpus page = some L) (hne : L ≠ []) :
    transition_model corpus page d =
      some (corpus.map (fun q =>
        (q.1, if q.1 ∈ L then d / (L.length : ℚ) + (1 - d) / (corpus.length : ℚ)
              else (1 - d) / (corpus.length : ℚ)))) := by
  unfold transition_model
  rw [hL]
  simp only [if_neg (fun h => hne (List.length_eq_zero.mp h))]
  congr 1
  rw [List.map_map]
  apply List.map_congr_left
  intro x _
  by_cases hx : x.1 ∈ L
  · simp only [Function.comp_apply, if_pos hx]
  · simp only [Function.comp_apply, if_neg hx]

/-- C1: for every graph, page `page` of the graph with outgoing set `L`, and
damping factor in `[0,1]`, `transition_model` yields the uniform
distribution `1/N` when `L` is empty, and otherwise assigns
`(1-d)/N + d/|L|` to the pages of `L` and `(1-d)/N` to all other pages. -/
theorem C1_transition_model_values (corpus : Corpus) (page : Page) (d : ℚ)
    (L : List Page) (hL : lookupOpt corpus page = some L)
    (h0 : 0 ≤ d) (h1 : d ≤ 1) :
    ∃ dist, transition_model corpus page d = some dist ∧
      (L = [] → ∀ q ∈ corpus.map Prod.fst,
        lookupOpt dist q = some ((1 : ℚ) / (corpus.length : ℚ))) ∧
      (L ≠ [] → ∀ q ∈ corpus.map Prod.fst,
        lookupOpt dist q = some (if q ∈ L
          then (1 - d) / (corpus.length : ℚ) + d / (L.length : ℚ)
          else (1 - d) / (corpus.length : ℚ))) := by
  by_cases hLe : L = []
  · subst hLe
    refine ⟨_, transition_model_eq_empty corpus page d hL, ?_, ?_⟩
    · intro _ q hq
      exact lookupOpt_map_key (fun _ => (1 : ℚ) / (corpus.length : ℚ)) corpus q hq
    · intro hne
      exact absurd rfl hne
  · refine ⟨_, transition_model_eq_links corpus page d L hL hLe, ?_, ?_⟩
    · intro he
      exact absurd he hLe
    · intro _ q hq
      rw [lookupOpt_map_key
        (fun x => if x ∈ L then d / (L.length : ℚ) + (1 - d) / (corpus.length : ℚ)
          else (1 - d) / (corpus.length : ℚ)) corpus q hq]
      congr 1
      by_cases hqL : q ∈ L
      · rw [if_pos hqL, if_pos hqL, add_comm]
      · rw [if_neg hqL, if_neg hqL]

/-- C1 witness: the two-page graph `{"a": {"b"}, "b": {"a"}}` at page `"a"`
with damping factor `17/20`. -/
theorem C1_transition_model_values_witness :
    (lookupOpt corpusA "a" = some ["b"] ∧ (0 : ℚ) ≤ 17/20 ∧ (17/20 : ℚ) ≤ 1) ∧
    (∃ dist, transition_model corpusA "a" (17/20) = some dist ∧
      ((["b"] : List Page) = [] → ∀ q ∈ corpusA.map Prod.fst,
        lookupOpt dist q = some ((1 : ℚ) / (corpusA.length : ℚ))) ∧
      ((["b"] : List Page) ≠ [] → ∀ q ∈ corpusA.map Prod.fst,
        lookupOpt dist q = some (if q ∈ (["b"] : List Page)
          then (1 - 17/20) / (corpusA.length : ℚ) +
            (17/20) / (((["b"] : List Page).length : ℚ))
          else (1 - 17/20) / (corpusA.length : ℚ)))) :=
  ⟨⟨by decide, by norm_num, by norm_num⟩,
   C1_transition_model_values corpusA "a" (17/20) ["b"] (by decide)
     (by norm_num) (by norm_num)⟩

/-- C6: for every graph satisfying the §3 invariant (keys unique, outgoing
sets duplicate-free and contained in the key set), every page of the graph
and every damping factor in `[0,1]`, the values of `transition_model` sum to
exactly 1 in exact rational arithmetic (hence within any floating
tolerance). -/
theorem C6_transition_model_sums_to_one (corpus : Corpus) (page : Page) (d : ℚ)
    (L : List Page) (hknd : (corpus.map Prod.fst).Nodup) (hLnd : L.Nodup)
    (hL : lookupOpt corpus page = some L)
    (hsub : ∀ x ∈ L, x ∈ corpus.map Prod.fst) (h0 : 0 ≤ d) (h1 : d ≤ 1) :
    ∃ dist, transition_model corpus page d = some dist ∧ sumDist dist = 1 := by
  have hcne : corpus ≠ [] := keys_ne_nil_of_lookupOpt hL
  have hNne : (corpus.length : ℚ) ≠ 0 := by
    simpa using fun h => hcne (List.length_eq_zero.mp h)
  by_cases hLe : L = []
  · subst hLe
    refine ⟨_, transition_model_eq_empty corpus page d hL, ?_⟩
    rw [sumDist_map_key corpus (fun _ => (1 : ℚ) / (corpus.length : ℚ)),
      sum_map_const]
    field_simp
  · refine ⟨_, transition_model_eq_links corpus page d L hL hLe, ?_⟩
    have hLlen : (L.length : ℚ) ≠ 0 := by
      simpa using fun h => hLe (List.length_eq_zero.mp h)
    rw [sumDist_map_key corpus
      (fun x => if x ∈ L then d / (L.length : ℚ) + (1 - d) / (corpus.length : ℚ)
        else (1 - d) / (corpus.length : ℚ))]
    rw [show (corpus.map
        (fun q => if q.1 ∈ L then d / (L.length : ℚ) + (1 - d) / (corpus.length : ℚ)
          else (1 - d) / (corpus.length : ℚ))).sum =
      ((corpus.countP (fun q => decide (q.1 ∈ L)) : ℚ)) * (d / (L.length : ℚ)) +
        ((corpus.length : ℚ)) * ((1 - d) / (corpus.length : ℚ)) from
      sum_map_ite (fun q : Page × List Page => q.1 ∈ L)
        (d / (L.length : ℚ)) ((1 - d) / (corpus.length : ℚ)) corpus]
    have hcount : corpus.countP (fun q => decide (q.1 ∈ L)) = L.length := by
      rw [show (fun q : Page × List Page => decide (q.1 ∈ L)) =
        ((fun x => decide (x ∈ L)) ∘ Prod.fst) from rfl, ← List.countP_map]
      exact countP_mem_nodup (corpus.map Prod.fst) L hknd hLnd hsub
    rw [hcount]
    field_simp

/-- C6 witness: the two-page graph `{"a": {"b"}, "b": {"a"}}` at page `"a"`
with damping factor `17/20`. -/
theorem C6_transition_model_sums_to_one_witness :
    ((corpusA.map Prod.fst).Nodup ∧ (["b"] : List Page).Nodup ∧
     lookupOpt corpusA "a" = some ["b"] ∧
     (∀ x ∈ (["b"] : List Page), x ∈ corpusA.map Prod.fst) ∧
     (0 : ℚ) ≤ 17/20 ∧ (17/20 : ℚ) ≤ 1) ∧
    (∃ dist, transition_model corpusA "a" (17/20) = some dist ∧
      sumDist dist = 1) :=
  ⟨⟨by decide, by decide, by decide, by decide, by norm_num, by norm_num⟩,
   C6_transition_model_sums_to_one corpusA "a" (17/20) ["b"]
     (by decide) (by decide) (by decide) (by decide) (by norm_num) (by norm_num)⟩

/-- C8 counterexample: `sample_pagerank` on the two-page graph with
`n = -1 ≤ 0` does not fail: it silently returns the all-zero mapping (whose
values sum to 0, not 1), because the sampling loop body never runs and
`0 / (-1) = 0`.  This refutes the claim that every call with `n ≤ 0` fails
fast before the hit-count division. -/
theorem C8_counterexample :
    (-1 : ℤ) ≤ 0 ∧
    sample_pagerank corpusA (17/20) (-1) (fun _ => "a") =
      some [("a", 0), ("b", 0)] ∧
    sumDist [("a", 0), ("b", 0)] = 0 := by
  refine ⟨by norm_num, ?_, ?_⟩ <;> with_unfolding_all decide

/-- C8 (amended): `sample_pagerank` has no guard on `n ≤ 0`.  With `n = 0`
the loop body never runs and the final hit-count division raises
`ZeroDivisionError` (modelled as `none`) — an error, but only at the
division itself, which is reached.  With `n < 0` the loop body never runs
and the function silently returns the mapping sending every page to
`0 / n = 0`. -/
theorem C8_sample_pagerank_unguarded (corpus : Corpus) (d : ℚ)
    (draws : ℕ → Page) :
    sample_pagerank corpus d 0 draws = none ∧
    (∀ n : ℤ, n < 0 →
      sample_pagerank corpus d n draws =
        some (corpus.map (fun q => (q.1, (0 : ℚ))))) := by
  constructor
  · simp [sample_pagerank]
  · intro n hn
    have ht : n.toNat = 0 := Int.toNat_of_nonpos (le_of_lt hn)
    simp only [sample_pagerank, ht]
    rw [if_neg (by omega : ¬n = 0)]
    congr 1
    show (corpus.map (fun q => (q.1, (0 : ℕ)))).map
        (fun q => (q.1, (q.2 : ℚ) / (n : ℚ))) = _
    rw [List.map_map]
    apply List.map_congr_left
    intro q _
    simp

/-- C8 witness: the amended statement applied at the two-page graph with
`n = -1`. -/
theorem C8_sample_pagerank_unguarded_witness :
    (-1 : ℤ) < 0 ∧
    sample_pagerank corpusA (17/20) (-1) (fun _ => "a") =
      some (corpusA.map (fun q => (q.1, (0 : ℚ)))) :=
  ⟨by norm_num,
   (C8_sample_pagerank_unguarded corpusA (17/20) (fun _ => "a")).2 (-1)
     (by norm_num)⟩

/-- Helper for C10: the recursive `rank_pages` agrees with the explicit
convergence loop, returning the loop's final state paired with that state's
rank dict. -/
theorem rank_pages_eq_loop (d : ℚ) (fuel : ℕ) : ∀ st : Corpus × Distro,
    rank_pages d fuel st = (rank_pages_loop d fuel st).map (fun s => (s, s.2)) := by
  induction fuel with
  | zero => intro st; rfl
  | succ n ih =>
    intro st
    simp only [rank_pages, rank_pages_loop]
    by_cases hc : convergedB st.2 (onePass d st).2
    · rw [if_pos hc, if_pos hc]
      rfl
    · rw [if_neg hc, if_neg hc, ih (onePass d st), Option.map_map]
      rfl

/-- C10: the recursive formulation of `rank_pages` — which discards its
recursive call's return value and returns the threaded (in-place mutated)
rank dict — is equivalent to an explicit loop repeating passes until every
per-page change is at most the convergence threshold; whenever it
terminates, `iterate_pagerank` returns exactly the rank vector of the loop's
final (converged) state. -/
theorem C10_recursion_is_loop (d : ℚ) (fuel : ℕ) (st : Corpus × Distro)
    (c : Corpus) :
    rank_pages d fuel st = (rank_pages_loop d fuel st).map (fun s => (s, s.2)) ∧
    iterate_pagerank c d fuel =
      (rank_pages_loop d fuel
        (c, c.map (fun q => (q.1, (1 : ℚ) / (c.length : ℚ))))).map (fun s => s.2) := by
  constructor
  · exact rank_pages_eq_loop d fuel st
  · show Option.map Prod.snd
      (rank_pages d fuel (c, c.map (fun q => (q.1, (1 : ℚ) / (c.length : ℚ))))) = _
    rw [rank_pages_eq_loop d fuel, Option.map_map]
    rfl

/-- C2 counterexample: on the sink-free graph `{"a": {"b","c"}, "b": {"c"},
"c": {"a"}}` with damping factor `17/20` and uniform start `1/3`, the first
pass assigns page `"c"` the value `851/2400`, not the value
`(1-d)/3 + d·(old("a")/2 + old("b")/1) = 19/40` demanded by the claim's
snapshot (Jacobi) reading: pages `"a"` and `"b"` are the in-neighbors of
`"c"`, and the code reads their ranks after they were already updated in the
same pass. -/
theorem C2_counterexample :
    lookupD (onePass (17/20) (corpusGS, thirds)).2 "c" 0 = 851/2400 ∧
    (851/2400 : ℚ) ≠ (1 - 17/20) / 3 + (17/20) * ((1/3) / 2 + (1/3) / 1) := by
  constructor
  · set_option maxRecDepth 40000 in with_unfolding_all decide
  · norm_num

/-- C2 (amended): within a pass the rank dict is updated in place, so the
new rank of a non-sink page `p` is the Gauss–Seidel value `gsValue` computed
from the state reached after processing the keys before `p` in corpus order
(ranks updated earlier in the same pass, and sink repairs already applied),
not from the start-of-pass snapshot, which the code uses only for the
convergence test. -/
theorem C2_gauss_seidel (d : ℚ) (c : Corpus) (r : Distro) (ks₁ ks₂ : List Page)
    (p : Page) (L : List Page)
    (hknd : (c.map Prod.fst).Nodup) (hkeys : c.map Prod.fst = ks₁ ++ p :: ks₂)
    (hrk : r.map Prod.fst = c.map Prod.fst)
    (hL : lookupOpt c p = some L) (hLne : L ≠ []) :
    lookupD (onePass d (c, r)).2 p 0 =
      gsValue d (List.foldl (passStep d) (c, r) ks₁) p := by
  have hnd' : (ks₁ ++ p :: ks₂).Nodup := hkeys ▸ hknd
  have hsplit := List.nodup_append.mp hnd'
  have hp1 : p ∉ ks₁ := fun h => hsplit.2.2 h (List.mem_cons_self p ks₂)
  have hp2 : p ∉ ks₂ := (List.nodup_cons.mp hsplit.2.1).1
  show lookupD (List.foldl (passStep d) (c, r) (c.map Prod.fst)).2 p 0 = _
  rw [hkeys, List.foldl_append, List.foldl_cons]
  have hLmid : lookupOpt (List.foldl (passStep d) (c, r) ks₁).1 p = some L := by
    rw [foldl_pass_corpus_lookupOpt d p ks₁ hp1]
    exact hL
  have hpk : p ∈ (List.foldl (passStep d) (c, r) ks₁).2.map Prod.fst := by
    rw [foldl_pass_ranks_keys]
    show p ∈ r.map Prod.fst
    rw [hrk, hkeys]
    exact List.mem_append_right _ (List.mem_cons_self p ks₂)
  rw [lookupD, foldl_pass_ranks_lookupOpt d p ks₂ hp2,
    passStep_nonsink d (List.foldl (passStep d) (c, r) ks₁) p L hLmid hLne]
  show (lookupOpt (dictSet (List.foldl (passStep d) (c, r) ks₁).2 p
    (gsValue d (List.foldl (passStep d) (c, r) ks₁) p)) p).getD 0 = _
  rw [lookupOpt_dictSet_self _ hpk]
  rfl

/-- C2 witness: the amended statement applied to the graph of the
counterexample at page `"c"`, whose preceding keys in corpus order are
`["a", "b"]`. -/
theorem C2_gauss_seidel_witness :
    ((corpusGS.map Prod.fst).Nodup ∧
     corpusGS.map Prod.fst = ["a", "b"] ++ "c" :: [] ∧
     thirds.map Prod.fst = corpusGS.map Prod.fst ∧
     lookupOpt corpusGS "c" = some ["a"] ∧ (["a"] : List Page) ≠ []) ∧
    lookupD (onePass (17/20) (corpusGS, thirds)).2 "c" 0 =
      gsValue (17/20) (List.foldl (passStep (17/20)) (corpusGS, thirds) ["a", "b"]) "c" :=
  ⟨⟨by decide, by decide, by with_unfolding_all decide, by decide, by decide⟩,
   C2_gauss_seidel (17/20) corpusGS thirds ["a", "b"] [] "c" ["a"]
     (by decide) (by decide) (by with_unfolding_all decide) (by decide) (by decide)⟩

/-- C3 counterexample: on scenario B's graph `{"a": {"b","c"}, "b": {},
"c": {"a"}}` with damping factor `17/20` and uniform start `1/3`, the pass
that repairs the sink `"b"` assigns it `(1-d)/3 = 1/20` — the claimed value,
the in-neighbor sum over the repaired outgoing sets
`(1-d)/3 + d·(old("a")/2 + old("b")/3) = 103/360`, is not computed, because
the sink branch sums over the stale (empty) `links` object. -/
theorem C3_counterexample :
    lookupD (onePass (17/20) (corpusB, thirds)).2 "b" 0 = 1/20 ∧
    (1/20 : ℚ) ≠ (1 - 17/20) / 3 + (17/20) * ((1/3) / 2 + (1/3) / 3) := by
  constructor
  · set_option maxRecDepth 40000 in with_unfolding_all decide
  · norm_num

/-- C3 (amended): when `rank_pages` reaches a sink page `p` it replaces
`p`'s outgoing set with the full page set and, on that same step, assigns
`p` the rank `(1-d)/N + d·0 = (1-d)/N`: the sum in the sink branch iterates
the pre-repair (empty) `links` value, so it contributes nothing.  The repair
is never re-applied: any page whose outgoing set is non-empty leaves the
corpus untouched, so once repaired (the full page set of a non-empty corpus
is non-empty) a page always takes the non-sink branch afterwards. -/
theorem C3_sink_repair (d : ℚ) (c : Corpus) (r : Distro) (p : Page)
    (hp : lookupOpt c p = some []) (hpr : p ∈ r.map Prod.fst) :
    passStep d (c, r) p = (dictSet c p (c.map Prod.fst),
        dictSet r p ((1 - d) / (c.length : ℚ))) ∧
    lookupOpt (passStep d (c, r) p).1 p = some (c.map Prod.fst) ∧
    lookupD (passStep d (c, r) p).2 p 0 = (1 - d) / (c.length : ℚ) ∧
    (∀ (c' : Corpus) (r' : Distro) (q : Page) (L : List Page),
      lookupOpt c' q = some L → L ≠ [] → (passStep d (c', r') q).1 = c') := by
  have hpc : p ∈ c.map Prod.fst :=
    List.mem_map_of_mem Prod.fst (mem_of_lookupOpt hp)
  refine ⟨passStep_sink d (c, r) p hp, ?_, ?_, ?_⟩
  · rw [passStep_sink d (c, r) p hp]
    exact lookupOpt_dictSet_self _ hpc
  · rw [passStep_sink d (c, r) p hp]
    show (lookupOpt (dictSet r p ((1 - d) / (c.length : ℚ))) p).getD 0 = _
    rw [lookupOpt_dictSet_self _ hpr]
    rfl
  · intro c' r' q L hL hLne
    rw [passStep_nonsink d (c', r') q L hL hLne]

/-- C3 witness: the sink `"b"` of scenario B's graph at the uniform start. -/
theorem C3_sink_repair_witness :
    (lookupOpt corpusB "b" = some [] ∧ "b" ∈ thirds.map Prod.fst) ∧
    (passStep (17/20) (corpusB, thirds) "b" =
        (dictSet corpusB "b" (corpusB.map Prod.fst),
         dictSet thirds "b" ((1 - 17/20) / (corpusB.length : ℚ))) ∧
     lookupOpt (passStep (17/20) (corpusB, thirds) "b").1 "b" =
        some (corpusB.map Prod.fst) ∧
     lookupD (passStep (17/20) (corpusB, thirds) "b").2 "b" 0 =
        (1 - 17/20) / (corpusB.length : ℚ) ∧
     (∀ (c' : Corpus) (r' : Distro) (q : Page) (L : List Page),
        lookupOpt c' q = some L → L ≠ [] →
        (passStep (17/20) (c', r') q).1 = c')) :=
  ⟨⟨by decide, by with_unfolding_all decide⟩,
   C3_sink_repair (17/20) corpusB thirds "b" (by decide)
     (by with_unfolding_all decide)⟩

/-- C4: evaluation at the failing input.  On the single-page graph
`{"a": {}}` the returned vector does not sum to 1 within `1e-6`: with
damping factor 1 (allowed by the claim, `1 ∈ [0,1]`) `iterate_pagerank`
returns `{a: 0.0}`, summing to 0; with damping factor `1/2` it stops after
ten passes at `{a: 1023/1024}`, summing to `1 - 1/1024`, off by about
`1e-3`.  The mass is lost because the sink-repair pass adds `d·(sum over
the stale empty links) = 0` instead of the in-neighbor term, contradicting
the function's own docstring "All PageRank values should sum to 1". -/
theorem C4_sum_not_one :
    (iterate_pagerank corpusC 1 3).map sumDist = some 0 ∧
    (iterate_pagerank corpusC (1/2) 12).map sumDist = some (1023/1024) ∧
    ¬(|(0 : ℚ) - 1| ≤ 1 / 1000000) ∧
    ¬(|(1023/1024 : ℚ) - 1| ≤ 1 / 1000000) := by
  refine ⟨?_, ?_, ?_, ?_⟩
  · with_unfolding_all decide
  · set_option maxRecDepth 200000 in with_unfolding_all decide
  · with_unfolding_all decide
  · with_unfolding_all decide

/-- C5: evaluation at the failing input.  On the single-page graph
`{"a": {}}` `transition_model` does return `{a: 1.0}` as claimed, but
`iterate_pagerank` does not return `{a: 1.0}` in one step: with damping
factor 1 it converges to `{a: 0.0}` (second pass), and with damping factor
`1/2` it stops after ten passes at `{a: 1023/1024}`.  The first pass
repairs the sink and computes `(1-d)/1 + d·0 = 1-d`, losing the mass the
claim's recurrence `rank = (1-d) + d·rank` would keep at 1. -/
theorem C5_single_page_not_one :
    transition_model corpusC "a" 1 = some [("a", 1)] ∧
    iterate_pagerank corpusC 1 3 = some [("a", 0)] ∧
    iterate_pagerank corpusC (1/2) 12 = some [("a", 1023/1024)] ∧
    ((0 : ℚ) ≠ 1 ∧ (1023/1024 : ℚ) ≠ 1) := by
  refine ⟨?_, ?_, ?_, ?_, ?_⟩
  · with_unfolding_all decide
  · with_unfolding_all decide
  · set_option maxRecDepth 200000 in with_unfolding_all decide
  · with_unfolding_all decide
  · with_unfolding_all decide

/-- C9: on any terminating run, `rank_pages` (the mutable core of
`iterate_pagerank`) changes the corpus exactly by replacing the outgoing
set of every sink page with the full page set: the final corpus is
`repairCorpus` of the input, the key set is unchanged, every non-sink
page's outgoing set is unchanged, and every sink page's outgoing set has
become the full key set.  (`transition_model` and `sample_pagerank` contain
no assignment to the corpus — they are pure in the corpus by construction,
as in the source.) -/
theorem C9_graph_mutation (d : ℚ) (fuel : ℕ) (c : Corpus) (r : Distro)
    (stF : Corpus × Distro) (ret : Distro)
    (hknd : (c.map Prod.fst).Nodup)
    (h : rank_pages d fuel (c, r) = some (stF, ret)) :
    stF.1 = repairCorpus c ∧
    stF.1.map Prod.fst = c.map Prod.fst ∧
    (∀ p L, lookupOpt c p = some L → L ≠ [] → lookupOpt stF.1 p = some L) ∧
    (∀ p, lookupOpt c p = some [] →
      lookupOpt stF.1 p = some (c.map Prod.fst)) := by
  have hmain : stF.1 = repairCorpus c := by
    cases fuel with
    | zero => simp [rank_pages] at h
    | succ n =>
      have hcorp : (onePass d (c, r)).1 = repairCorpus c :=
        onePass_corpus d (c, r) hknd
      simp only [rank_pages] at h
      split at h
      · have h1 : onePass d (c, r) = stF := by
          injection h with h'
          exact congrArg Prod.fst h'
        rw [← h1, hcorp]
      · rcases Option.map_eq_some'.mp h with ⟨res, hres, heq⟩
        have h1 : res.1 = stF := congrArg Prod.fst heq
        have hknd' : ((onePass d (c, r)).1.map Prod.fst).Nodup := by
          rw [hcorp, repairCorpus_keys]
          exact hknd
        have hns' : ∀ q ∈ (onePass d (c, r)).1, q.2 ≠ [] := by
          rw [hcorp]
          exact repairCorpus_no_sink c
        have hfix := rank_pages_corpus_fixed d n (onePass d (c, r)) res.1 res.2
          hknd' hns' hres
        rw [← h1, hfix, hcorp]
  refine ⟨hmain, ?_, ?_, ?_⟩
  · rw [hmain, repairCorpus_keys]
  · intro p L hL hLne
    rw [hmain, show repairCorpus c =
      c.map (fun q => (q.1, if q.2 = [] then c.map Prod.fst else q.2)) from rfl,
      lookupOpt_map_val _ c p L hL, if_neg hLne]
  · intro p hL
    rw [hmain, show repairCorpus c =
      c.map (fun q => (q.1, if q.2 = [] then c.map Prod.fst else q.2)) from rfl,
      lookupOpt_map_val _ c p [] hL]
    rfl

/-- C9 witness: the single-sink graph `{"a": {}}` with damping factor 0,
which converges in one pass; the final corpus is the repaired
`{"a": {"a"}}`. -/
theorem C9_graph_mutation_witness :
    ((corpusC.map Prod.fst).Nodup ∧
     rank_pages 0 1 (corpusC, [("a", 1)]) =
       some (([("a", ["a"])], [("a", 1)]), [("a", 1)])) ∧
    ((([("a", ["a"])], ([("a", 1)] : Distro)).1 = repairCorpus corpusC) ∧
     (([("a", ["a"])], ([("a", 1)] : Distro)).1.map Prod.fst =
       corpusC.map Prod.fst) ∧
     (∀ p L, lookupOpt corpusC p = some L → L ≠ [] →
       lookupOpt (([("a", ["a"])], ([("a", 1)] : Distro)).1) p = some L) ∧
     (∀ p, lookupOpt corpusC p = some [] →
       lookupOpt (([("a", ["a"])], ([("a", 1)] : Distro)).1) p =
         some (corpusC.map Prod.fst))) :=
  ⟨⟨by decide, by with_unfolding_all decide⟩,
   C9_graph_mutation 0 1 corpusC [("a", 1)] ([("a", ["a"])], [("a", 1)])
     [("a", 1)] (by decide) (by with_unfolding_all decide)⟩

theorem countHits_eq_countRange (draws : ℕ → Page) (steps : ℕ) (p : Page) :
    countHits draws steps p = countRange draws 0 steps p := by
  unfold countHits countRange
  rw [List.range_eq_range']

/-- C7: for every graph with unique keys, every `n ≥ 1` and every sequence
of random draws landing on corpus keys (as `random.choice` and the weighted
`random.choices` always do), `sample_pagerank` returns, for each page, its
non-negative integer hit count divided by `n`; the hit counts sum to `n`,
and hence the returned values sum to exactly 1. -/
theorem C7_sample_pagerank_valid (corpus : Corpus) (d : ℚ) (n : ℤ)
    (draws : ℕ → Page)
    (hknd : (corpus.map Prod.fst).Nodup) (hn : 1 ≤ n)
    (hdr : ∀ j, draws j ∈ corpus.map Prod.fst) :
    sample_pagerank corpus d n draws =
      some (corpus.map (fun q =>
        (q.1, ((countHits draws n.toNat q.1 : ℕ) : ℚ) / (n : ℚ)))) ∧
    ((corpus.map Prod.fst).map (fun p => countHits draws n.toNat p)).sum =
      n.toNat ∧
    (sample_pagerank corpus d n draws).map sumDist = some 1 := by
  have hkeys0 : (corpus.map (fun q => (q.1, (0 : ℕ)))).map Prod.fst =
      corpus.map Prod.fst := by
    rw [List.map_map]
    rfl
  have hchar := sampleSteps_char draws n.toNat 0
    (corpus.map (fun q => (q.1, (0 : ℕ))))
    (by rw [hkeys0]; exact hknd) (fun j => by rw [hkeys0]; exact hdr j)
  have hfinal : sampleSteps draws 0 n.toNat (corpus.map (fun q => (q.1, (0 : ℕ)))) =
      corpus.map (fun q => (q.1, countHits draws n.toNat q.1)) := by
    rw [hchar, List.map_map]
    apply List.map_congr_left
    intro q _
    show (q.1, 0 + countRange draws 0 n.toNat q.1) = _
    rw [Nat.zero_add, ← countHits_eq_countRange]
  have hn0 : ¬n = 0 := by omega
  have hone : sample_pagerank corpus d n draws =
      some (corpus.map (fun q =>
        (q.1, ((countHits draws n.toNat q.1 : ℕ) : ℚ) / (n : ℚ)))) := by
    simp only [sample_pagerank]
    rw [if_neg hn0, hfinal, List.map_map]
    rfl
  have htwo : ((corpus.map Prod.fst).map
      (fun p => countHits draws n.toNat p)).sum = n.toNat := by
    rw [show (corpus.map Prod.fst).map (fun p => countHits draws n.toNat p) =
      (corpus.map Prod.fst).map (fun p => countRange draws 0 n.toNat p) from
      List.map_congr_left (fun p _ => countHits_eq_countRange draws n.toNat p)]
    exact sum_countRange draws (corpus.map Prod.fst) hknd hdr n.toNat 0
  refine ⟨hone, htwo, ?_⟩
  rw [hone]
  show some (sumDist _) = some 1
  congr 1
  rw [sumDist_map_key corpus
    (fun p => ((countHits draws n.toNat p : ℕ) : ℚ) / (n : ℚ))]
  rw [show (corpus.map (fun q =>
      ((countHits draws n.toNat q.1 : ℕ) : ℚ) / (n : ℚ))).sum =
    ((corpus.map (fun q => ((countHits draws n.toNat q.1 : ℕ) : ℚ))).sum / (n : ℚ))
    from sum_map_div corpus (fun q => ((countHits draws n.toNat q.1 : ℕ) : ℚ)) (n : ℚ)]
  have hcast : (corpus.map (fun q =>
      ((countHits draws n.toNat q.1 : ℕ) : ℚ))).sum =
      (((corpus.map (fun q => countHits draws n.toNat q.1)).sum : ℕ) : ℚ) := by
    rw [Nat.cast_list_sum, List.map_map]
    rfl
  rw [hcast]
  have hsum : (corpus.map (fun q => countHits draws n.toNat q.1)).sum = n.toNat := by
    rw [show corpus.map (fun q => countHits draws n.toNat q.1) =
      (corpus.map Prod.fst).map (fun p => countHits draws n.toNat p) from by
      rw [List.map_map]
      rfl]
    exact htwo
  rw [hsum]
  have hnn : ((n.toNat : ℕ) : ℚ) = (n : ℚ) := by
    have h1 : ((n.toNat : ℤ) : ℚ) = (n : ℚ) := by
      rw [Int.toNat_of_nonneg (by omega : (0 : ℤ) ≤ n)]
    push_cast at h1 ⊢
    exact h1
  rw [hnn]
  exact div_self (by
    have : (0 : ℤ) < n := by omega
    exact_mod_cast ne_of_gt (by exact_mod_cast this : (0 : ℚ) < (n : ℚ)))

/-- C7 witness: the two-page graph, `n = 2`, with both draws landing on
`"a"`. -/
theorem C7_sample_pagerank_valid_witness :
    ((corpusA.map Prod.fst).Nodup ∧ (1 : ℤ) ≤ 2 ∧
     (∀ j : ℕ, (fun _ : ℕ => ("a" : Page)) j ∈ corpusA.map Prod.fst)) ∧
    (sample_pagerank corpusA (17/20) 2 (fun _ : ℕ => ("a" : Page)) =
      some (corpusA.map (fun q =>
        (q.1, ((countHits (fun _ : ℕ => ("a" : Page)) (2 : ℤ).toNat q.1 : ℕ) : ℚ) /
          ((2 : ℤ) : ℚ)))) ∧
     ((corpusA.map Prod.fst).map
        (fun p => countHits (fun _ : ℕ => ("a" : Page)) (2 : ℤ).toNat p)).sum =
        (2 : ℤ).toNat ∧
     (sample_pagerank corpusA (17/20) 2 (fun _ : ℕ => ("a" : Page))).map sumDist =
        some 1) :=
  ⟨⟨by decide, by norm_num,
    fun _ => show ("a" : Page) ∈ corpusA.map Prod.fst by decide⟩,
   C7_sample_pagerank_valid corpusA (17/20) 2 (fun _ : ℕ => ("a" : Page))
     (by decide) (by norm_num)
     (fun _ => show ("a" : Page) ∈ corpusA.map Prod.fst by decide)⟩
